import Mathlib

/-!
# PicoVgaBasics: packed-pixel framebuffer and self-rearming DMA loop

A shallow embedding of `Vga_basics.c`.

* `vga_data_array` is a map from the valid indices `Fin TXCOUNT` to byte
  values (naturals; every store truncates modulo 256, as a store into an
  `unsigned char` does).
* `int` values are mathematical integers; every place where the C code could
  leave the 32-bit range or the array is an explicit check that makes
  `drawPixel` answer `none`.
* `char color` is the non-negative value the argument has after integer
  promotion.
-/

namespace VgaBasics

/-! ## Constants (lines 25-48) -/

/-- Line 26: `#define H_ACTIVE 655`. -/
def H_ACTIVE : Nat := 655

/-- Line 27: `#define V_ACTIVE 479`. -/
def V_ACTIVE : Nat := 479

/-- Line 28: `#define RGB_ACTIVE 319`. -/
def RGB_ACTIVE : Nat := 319

/-- Line 30: `#define TXCOUNT 153600`. -/
def TXCOUNT : Nat := 153600

/-- Colour index `#define BLACK 0`. -/
def BLACK : Nat := 0

/-- Colour index `#define RED 1`. -/
def RED : Nat := 1

/-- Colour index `#define GREEN 2`. -/
def GREEN : Nat := 2

/-- Colour index `#define YELLOW 3`. -/
def YELLOW : Nat := 3

/-- Colour index `#define BLUE 4`. -/
def BLUE : Nat := 4

/-- Colour index `#define MAGENTA 5`. -/
def MAGENTA : Nat := 5

/-- Colour index `#define CYAN 6`. -/
def CYAN : Nat := 6

/-- Colour index `#define WHITE 7`. -/
def WHITE : Nat := 7

/-! ## The framebuffer -/

/-- The global `unsigned char vga_data_array[TXCOUNT]`: the byte held at each valid index. -/
abbrev Framebuffer := Fin TXCOUNT → Nat

/-- Every cell holds a value an `unsigned char` can hold. -/
def IsBytes (fb : Framebuffer) : Prop := ∀ i, fb i < 256

/-- The zero-initialised global array. -/
def zeroBuffer : Framebuffer := fun _ => 0

/-- Smallest value of a 32-bit `int`. -/
def INT_MIN : Int := -2147483648

/-- Largest value of a 32-bit `int`. -/
def INT_MAX : Int := 2147483647

/-- The value is representable in a 32-bit `int`. -/
def inIntRange (v : Int) : Bool := decide (INT_MIN ≤ v ∧ v ≤ INT_MAX)

/-- The statement `vga_data_array[i] |= v`: the OR is computed on promoted
integers and the result is converted back to `unsigned char`. -/
def orAssign (fb : Framebuffer) (i : Fin TXCOUNT) (v : Nat) : Framebuffer :=
  fun j => if j = i then (fb j ||| v) % 256 else fb j

/-- Lines 64-65: `if (x > 639) x = 639; if (x < 0) x = 0;`. -/
def clampX (x : Int) : Int :=
  let x := if x > 639 then 639 else x
  if x < 0 then 0 else x

/-- Lines 66-67: `if (y < 0) y = 0; if (y > 479) y = 479;`. -/
def clampY (y : Int) : Int :=
  let y := if y < 0 then 0 else y
  if y > 479 then 479 else y

/-- The function `drawPixel` (lines 62-81).  The answer is `none` when the
arithmetic would leave the `int` range or the index would leave the array. -/
def drawPixel (fb : Framebuffer) (x y : Int) (color : Nat) : Option Framebuffer :=
  let x := clampX x
  let y := clampY y
  if inIntRange (640 * y) && inIntRange (640 * y + x) then
    let pixel := 640 * y + x
    let i := pixel >>> (1 : Nat)
    if h : 0 ≤ i ∧ i.toNat < TXCOUNT then
      if Int.land pixel 1 ≠ 0 then
        some (orAssign fb ⟨i.toNat, h.2⟩ (color <<< 3))
      else
        some (orAssign fb ⟨i.toNat, h.2⟩ color)
    else none
  else none

/-- Line 70: `int pixel = ((640 * y) + x)` on the clamped coordinates. -/
def pixelOf (x y : Int) : Int := 640 * clampY y + clampX x

/-- The subscript `pixel>>1` of lines 76 and 79. -/
def byteIndex (x y : Int) : Int := pixelOf x y >>> (1 : Nat)

/-- The test `pixel & 1` of line 75. -/
def nibble (x y : Int) : Int := Int.land (pixelOf x y) 1

/-- The value OR-ed into the byte: `color << 3` on line 76, `color` on line 79. -/
def fieldBits (x y : Int) (color : Nat) : Nat :=
  if nibble x y ≠ 0 then color <<< 3 else color

/-- A finite sequence of `drawPixel(x, y, color)` calls, run in order. -/
def drawPixels (fb : Framebuffer) : List (Int × Int × Nat) → Option Framebuffer
  | [] => some fb
  | (x, y, color) :: rest => (drawPixel fb x y color).bind (fun fb1 => drawPixels fb1 rest)

/-- The same call `drawPixel(x, y, color)` made `n` times in a row. -/
def drawPixelTimes (fb : Framebuffer) (x y : Int) (color : Nat) : Nat → Option Framebuffer
  | 0 => some fb
  | n + 1 => (drawPixel fb x y color).bind (fun fb1 => drawPixelTimes fb1 x y color n)

/-- The inner loop of lines 163-166: `for (x = 0; x < 640; x++) drawPixel(x, y, 0)`. -/
def clearRow (fb : Framebuffer) (y : Int) : Option Framebuffer :=
  (List.range 640).foldlM (fun acc x => drawPixel acc (x : Int) y 0) fb

/-- The nested loop of lines 161-167 at the head of every frame in `main`. -/
def clearPass (fb : Framebuffer) : Option Framebuffer :=
  (List.range 480).foldlM (fun acc y => clearRow acc (y : Int)) fb

/-- The framebuffer with one green pixel at `(0, 240)`, the first point of the
curve that `main` draws with `drawPixel(x, y, 2)` (line 179): byte
`(640*240)/2 = 76800` holds `GREEN`, every other byte is zero. -/
def greenDot : Framebuffer := fun i => if i.val = 76800 then GREEN else 0

/-! ## The two chained DMA channels (lines 112-156) -/

/-- The part of the DMA state the loop depends on.  `read_addr` and
`trans_count` are channel 0 registers, `address_pointer` is the global that
channel 1 reads, `streamed` counts the bytes sent since the last reload and
`resets` counts the reloads. -/
structure Pipeline where
  address_pointer : Nat
  read_addr : Nat
  trans_count : Nat
  streamed : Nat
  resets : Nat

/-- The state set up by `main` for an array placed at address `base`:
`address_pointer = &vga_data_array[0]`, channel 0 reads from `&vga_data_array`
and has `TXCOUNT` transfers to make. -/
def dmaInit (base : Nat) : Pipeline :=
  { address_pointer := base, read_addr := base, trans_count := TXCOUNT,
    streamed := 0, resets := 0 }

/-- One hardware event.  While channel 0 has transfers left it moves one byte
(`DMA_SIZE_8`, read increment on, 32-bit address register).  When the count
is exhausted the chain fires channel 1, whose single 32-bit transfer copies
`address_pointer` into channel 0's read address; channel 1 chains back to
channel 0, which reloads its count `TXCOUNT`. -/
def dmaStep (s : Pipeline) : Pipeline :=
  if s.trans_count ≠ 0 then
    { s with read_addr := (s.read_addr + 1) % 2 ^ 32,
             trans_count := s.trans_count - 1,
             streamed := s.streamed + 1 }
  else
    { s with read_addr := s.address_pointer % 2 ^ 32,
             trans_count := TXCOUNT,
             streamed := 0,
             resets := s.resets + 1 }

/-- The pipeline after `n` hardware events. -/
def dmaRun (s : Pipeline) : Nat → Pipeline
  | 0 => s
  | n + 1 => dmaRun (dmaStep s) n

/-- The words handed to the three PIO state machines on lines 149-151:
hsync, vsync, rgb. -/
def pioCounters : Nat × Nat × Nat := (H_ACTIVE, V_ACTIVE, RGB_ACTIVE)

/-- The facts that tie the cursor to the byte count within a pass. -/
def DmaInv (base : Nat) (s : Pipeline) : Prop :=
  s.address_pointer = base ∧ s.read_addr = base + s.streamed ∧
    s.streamed + s.trans_count = TXCOUNT

/-! ## Basic facts about the codec -/

theorem clampX_range (x : Int) : 0 ≤ clampX x ∧ clampX x ≤ 639 := by
  unfold clampX
  simp only
  split_ifs <;> omega

theorem clampY_range (y : Int) : 0 ≤ clampY y ∧ clampY y ≤ 479 := by
  unfold clampY
  simp only
  split_ifs <;> omega

theorem clampX_eq (x : Int) : clampX x = min (max x 0) 639 := by
  unfold clampX
  simp only
  split_ifs <;> omega

theorem clampY_eq (y : Int) : clampY y = min (max y 0) 479 := by
  unfold clampY
  simp only
  split_ifs <;> omega

theorem pixelOf_range (x y : Int) : 0 ≤ pixelOf x y ∧ pixelOf x y ≤ 307199 := by
  have hx := clampX_range x
  have hy := clampY_range y
  unfold pixelOf
  omega

theorem byteIndex_eq_div (x y : Int) : byteIndex x y = pixelOf x y / 2 := by
  unfold byteIndex
  rw [Int.shiftRight_eq_div_pow]
  norm_num

theorem byteIndex_range (x y : Int) : 0 ≤ byteIndex x y ∧ byteIndex x y < 153600 := by
  have hp := pixelOf_range x y
  rw [byteIndex_eq_div]
  omega

theorem byteIndex_toNat_lt (x y : Int) : (byteIndex x y).toNat < TXCOUNT := by
  have h := byteIndex_range x y
  unfold TXCOUNT
  omega

/-- What a call does, with every check discharged. -/
theorem drawPixel_eq (fb : Framebuffer) (x y : Int) (color : Nat) :
    drawPixel fb x y color =
      some (orAssign fb ⟨(byteIndex x y).toNat, byteIndex_toNat_lt x y⟩ (fieldBits x y color)) := by
  have hx := clampX_range x
  have hy := clampY_range y
  have hp := pixelOf_range x y
  have hi := byteIndex_range x y
  have hlt := byteIndex_toNat_lt x y
  have hr : (inIntRange (640 * clampY y) && inIntRange (640 * clampY y + clampX x)) = true := by
    simp only [inIntRange, INT_MIN, INT_MAX, Bool.and_eq_true, decide_eq_true_eq]
    omega
  have hb : 0 ≤ (640 * clampY y + clampX x) >>> (1 : Nat) ∧
      ((640 * clampY y + clampX x) >>> (1 : Nat)).toNat < TXCOUNT := ⟨hi.1, hlt⟩
  unfold drawPixel
  simp only [hr, if_true, dif_pos hb]
  unfold fieldBits nibble byteIndex pixelOf
  split_ifs <;> rfl

theorem nibble_eq_mod (x y : Int) : nibble x y = pixelOf x y % 2 := by
  obtain ⟨n, hn⟩ := Int.eq_ofNat_of_zero_le (pixelOf_range x y).1
  unfold nibble
  rw [hn]
  have h : Int.land (n : Int) 1 = ((n &&& 1 : Nat) : Int) := rfl
  rw [h, Nat.and_one_is_mod]
  norm_cast

theorem nibble_cases (x y : Int) : nibble x y = 0 ∨ nibble x y = 1 := by
  rw [nibble_eq_mod]
  omega

theorem fieldBits_even (x y : Int) (color : Nat) (h : pixelOf x y % 2 = 0) :
    fieldBits x y color = color := by
  unfold fieldBits
  rw [nibble_eq_mod, h]
  simp

theorem fieldBits_odd (x y : Int) (color : Nat) (h : pixelOf x y % 2 = 1) :
    fieldBits x y color = color <<< 3 := by
  unfold fieldBits
  rw [nibble_eq_mod, h]
  simp

theorem orAssign_same (fb : Framebuffer) (i : Fin TXCOUNT) (v : Nat) :
    orAssign fb i v i = (fb i ||| v) % 256 := by
  simp [orAssign]

theorem orAssign_other (fb : Framebuffer) (i j : Fin TXCOUNT) (v : Nat) (h : j ≠ i) :
    orAssign fb i v j = fb j := by
  simp [orAssign, h]

/-! ## Bit-level facts -/

theorem testBit_of_lt8 (c : Nat) (hc : c < 8) (i : Nat) (hi : 3 ≤ i) : c.testBit i = false := by
  apply Nat.testBit_lt_two_pow
  calc c < 2 ^ 3 := hc
    _ ≤ 2 ^ i := Nat.pow_le_pow_right (by decide) hi

theorem or_low_mod8 (a c : Nat) (hc : c < 8) : (a ||| c) % 8 = (a % 8) ||| c := by
  apply Nat.eq_of_testBit_eq
  intro i
  have h8 : (8 : Nat) = 2 ^ 3 := rfl
  rw [h8]
  simp only [Nat.testBit_mod_two_pow, Nat.testBit_or]
  by_cases hi : i < 3
  · simp [hi]
  · simp [hi, testBit_of_lt8 c hc i (by omega)]

theorem or_low_shift3 (a c : Nat) (hc : c < 8) : (a ||| c) >>> 3 = a >>> 3 := by
  apply Nat.eq_of_testBit_eq
  intro i
  simp [Nat.testBit_shiftRight, testBit_of_lt8 c hc (3 + i) (by omega)]

theorem or_high_mod8 (a c : Nat) : (a ||| (c <<< 3)) % 8 = a % 8 := by
  apply Nat.eq_of_testBit_eq
  intro i
  have h8 : (8 : Nat) = 2 ^ 3 := rfl
  rw [h8]
  simp only [Nat.testBit_mod_two_pow, Nat.testBit_or, Nat.testBit_shiftLeft]
  by_cases hi : i < 3
  · have : ¬ (i ≥ 3) := by omega
    simp [hi, this]
  · simp [hi]

theorem or_high_shift3 (a c : Nat) : (a ||| (c <<< 3)) >>> 3 = (a >>> 3) ||| c := by
  apply Nat.eq_of_testBit_eq
  intro i
  simp [Nat.testBit_shiftRight, Nat.testBit_shiftLeft]

theorem shl3_lt64 (c : Nat) (hc : c < 8) : c <<< 3 < 64 := by
  rw [Nat.shiftLeft_eq]
  omega

theorem or_lt64 (a b : Nat) (ha : a < 64) (hb : b < 64) : a ||| b < 64 :=
  @Nat.or_lt_two_pow a b 6 ha hb

theorem or_lt256 (a b : Nat) (ha : a < 256) (hb : b < 256) : a ||| b < 256 :=
  @Nat.or_lt_two_pow a b 8 ha hb

theorem or_mod256_idem (a v : Nat) : ((a ||| v) % 256 ||| v) % 256 = (a ||| v) % 256 := by
  apply Nat.eq_of_testBit_eq
  intro i
  have h8 : (256 : Nat) = 2 ^ 8 := rfl
  rw [h8]
  simp only [Nat.testBit_mod_two_pow, Nat.testBit_or]
  by_cases hi : i < 8 <;> simp [hi]

/-- A byte OR-ed with a value below 256 needs no truncation. -/
theorem or_byte_mod (a v : Nat) (ha : a < 256) (hv : v < 256) : (a ||| v) % 256 = a ||| v :=
  Nat.mod_eq_of_lt (or_lt256 a v ha hv)

theorem fieldBits_lt64 (x y : Int) (color : Nat) (hc : color < 8) : fieldBits x y color < 64 := by
  unfold fieldBits
  split_ifs
  · exact shl3_lt64 color hc
  · omega

/-- A call is an OR-assignment into the cell whose index is `pixel>>1`. -/
theorem drawPixel_spec (fb : Framebuffer) (x y : Int) (color : Nat) :
    ∃ i : Fin TXCOUNT, (i.val : Int) = byteIndex x y ∧
      drawPixel fb x y color = some (orAssign fb i (fieldBits x y color)) :=
  ⟨⟨(byteIndex x y).toNat, byteIndex_toNat_lt x y⟩,
    Int.toNat_of_nonneg (byteIndex_range x y).1, drawPixel_eq fb x y color⟩

/-! ## C6: no failure -/

/-- C6: for all integers `x` and `y` (negative and arbitrarily large ones
included) the call `drawPixel(x, y, color)` returns a framebuffer; the
subscript `pixel>>1` lies in `0 .. TXCOUNT-1`, and `640*y` and `640*y + x`
on the clamped coordinates stay inside the 32-bit `int` range. -/
theorem drawPixel_cannot_fail (fb : Framebuffer) (x y : Int) (color : Nat) :
    (drawPixel fb x y color).isSome = true ∧
    0 ≤ byteIndex x y ∧ byteIndex x y < (TXCOUNT : Int) ∧
    INT_MIN ≤ 640 * clampY y ∧ 640 * clampY y ≤ INT_MAX ∧
    INT_MIN ≤ pixelOf x y ∧ pixelOf x y ≤ INT_MAX := by
  have hy := clampY_range y
  have hp := pixelOf_range x y
  have hi := byteIndex_range x y
  refine ⟨by rw [drawPixel_eq]; rfl, hi.1, ?_, ?_, ?_, ?_, ?_⟩
  · unfold TXCOUNT
    exact_mod_cast hi.2
  all_goals (simp only [INT_MIN, INT_MAX]; omega)

/-! ## C3: saturation of the coordinates -/

/-- C3: for every `x`, `y`, `color` and framebuffer, `drawPixel(x, y, color)`
gives the same result as `drawPixel(min(max(x,0),639), min(max(y,0),479), color)`;
in particular `drawPixel(700, -5, 3)` is `drawPixel(639, 0, 3)`. -/
theorem drawPixel_saturates (fb : Framebuffer) (x y : Int) (color : Nat) :
    drawPixel fb x y color
      = drawPixel fb (min (max x 0) 639) (min (max y 0) 479) color ∧
    drawPixel fb 700 (-5) 3 = drawPixel fb 639 0 3 := by
  have hx : clampX (min (max x 0) 639) = clampX x := by
    unfold clampX
    simp only
    split_ifs <;> omega
  have hy : clampY (min (max y 0) 479) = clampY y := by
    unfold clampY
    simp only
    split_ifs <;> omega
  constructor
  · simp only [drawPixel, hx, hy]
  · have h1 : clampX 700 = clampX 639 := by decide
    have h2 : clampY (-5) = clampY 0 := by decide
    simp only [drawPixel, h1, h2]

/-! ## C9: the transfer count is one frame -/

/-- C9: the transfer count given to channel 0 is one frame: `(RGB_ACTIVE + 1)`
bytes per line times `(V_ACTIVE + 1)` lines is `320 * 480 = 153600 = TXCOUNT
= 640*480/2`, the number of cells of `vga_data_array`, where `RGB_ACTIVE` and
`V_ACTIVE` are the words sent to the rgb and vsync state machines and equal
`640/2 - 1` and `480 - 1`. -/
theorem txcount_is_one_frame :
    (pioCounters.2.2 + 1) * (pioCounters.2.1 + 1) = (dmaInit 0).trans_count ∧
    pioCounters.2.2 = RGB_ACTIVE ∧ pioCounters.2.1 = V_ACTIVE ∧
    (RGB_ACTIVE + 1) * (V_ACTIVE + 1) = 320 * 480 ∧
    320 * 480 = 153600 ∧ TXCOUNT = 153600 ∧ TXCOUNT = 640 * 480 / 2 ∧
    Fintype.card (Fin TXCOUNT) = TXCOUNT ∧
    RGB_ACTIVE = 640 / 2 - 1 ∧ V_ACTIVE = 480 - 1 := by
  refine ⟨by decide, rfl, rfl, by decide, by decide, rfl, by decide, ?_, by decide, by decide⟩
  exact Fintype.card_fin TXCOUNT

/-! ## C2: the frame of a pixel write -/

/-- C2: for a framebuffer of bytes, any integers `x`, `y` and a colour in
`0..7`, `drawPixel(x, y, color)` returns a framebuffer that differs from the
old one at most in the byte `linear>>1`, where
`linear = 640*clamp(y,0,479) + clamp(x,0,639)`: that byte becomes
`old | color` when `linear` is even and `old | (color<<3)` when it is odd.
No set bit is cleared, the field of the other pixel in the byte keeps its
value, and all other bytes are unchanged. -/
theorem drawPixel_or_accumulates (fb : Framebuffer) (hfb : IsBytes fb) (x y : Int)
    (color : Nat) (hc : color < 8) :
    pixelOf x y = 640 * min (max y 0) 479 + min (max x 0) 639 ∧
    ∃ (fb1 : Framebuffer) (i : Fin TXCOUNT),
      drawPixel fb x y color = some fb1 ∧
      (i.val : Int) = pixelOf x y >>> (1 : Nat) ∧
      (pixelOf x y % 2 = 0 →
        fb1 i = fb i ||| color ∧ (fb1 i >>> 3) % 8 = (fb i >>> 3) % 8) ∧
      (pixelOf x y % 2 = 1 →
        fb1 i = fb i ||| (color <<< 3) ∧ fb1 i % 8 = fb i % 8) ∧
      (∀ b, (fb i).testBit b = true → (fb1 i).testBit b = true) ∧
      (∀ j, j ≠ i → fb1 j = fb j) := by
  constructor
  · unfold pixelOf
    rw [clampX_eq, clampY_eq]
  obtain ⟨i, hi, hd⟩ := drawPixel_spec fb x y color
  have hv : fieldBits x y color < 256 := by
    have := fieldBits_lt64 x y color hc
    omega
  have hnew : orAssign fb i (fieldBits x y color) i = fb i ||| fieldBits x y color := by
    rw [orAssign_same, or_byte_mod _ _ (hfb i) hv]
  refine ⟨orAssign fb i (fieldBits x y color), i, hd, hi, ?_, ?_, ?_, ?_⟩
  · intro he
    rw [hnew, fieldBits_even x y color he]
    exact ⟨rfl, by rw [or_low_shift3 _ _ hc]⟩
  · intro ho
    rw [hnew, fieldBits_odd x y color ho]
    exact ⟨rfl, or_high_mod8 _ _⟩
  · intro b hb
    rw [hnew, Nat.testBit_or, hb]
    rfl
  · intro j hj
    exact orAssign_other fb i j _ hj

theorem isBytes_zeroBuffer : IsBytes zeroBuffer := by
  intro i
  simp [zeroBuffer]

/-- Witness for C2: the call `drawPixel(700, -5, 3)` on the zero framebuffer. -/
theorem drawPixel_or_accumulates_witness :
    IsBytes zeroBuffer ∧ (3 : Nat) < 8 ∧
    (pixelOf 700 (-5) = 640 * min (max (-5) 0) 479 + min (max 700 0) 639 ∧
    ∃ (fb1 : Framebuffer) (i : Fin TXCOUNT),
      drawPixel zeroBuffer 700 (-5) 3 = some fb1 ∧
      (i.val : Int) = pixelOf 700 (-5) >>> (1 : Nat) ∧
      (pixelOf 700 (-5) % 2 = 0 →
        fb1 i = zeroBuffer i ||| 3 ∧ (fb1 i >>> 3) % 8 = (zeroBuffer i >>> 3) % 8) ∧
      (pixelOf 700 (-5) % 2 = 1 →
        fb1 i = zeroBuffer i ||| (3 <<< 3) ∧ fb1 i % 8 = zeroBuffer i % 8) ∧
      (∀ b, (zeroBuffer i).testBit b = true → (fb1 i).testBit b = true) ∧
      (∀ j, j ≠ i → fb1 j = zeroBuffer j)) :=
  ⟨isBytes_zeroBuffer, by decide,
    drawPixel_or_accumulates zeroBuffer isBytes_zeroBuffer 700 (-5) 3 (by decide)⟩

/-! ## C1: the clear pass -/

/-- Drawing with colour 0 ORs zero into the byte: nothing changes. -/
theorem drawPixel_black (fb : Framebuffer) (hfb : IsBytes fb) (x y : Int) :
    drawPixel fb x y 0 = some fb := by
  obtain ⟨i, _, hd⟩ := drawPixel_spec fb x y 0
  rw [hd]
  have hv : fieldBits x y 0 = 0 := by
    unfold fieldBits
    split_ifs <;> simp
  congr 1
  funext j
  by_cases hj : j = i
  · subst hj
    rw [orAssign_same, hv, Nat.or_zero, Nat.mod_eq_of_lt (hfb j)]
  · exact orAssign_other fb i j _ hj

theorem foldlM_fixed {α β : Type} (f : β → α → Option β) (b : β) (l : List α)
    (h : ∀ a, f b a = some b) : l.foldlM f b = some b := by
  induction l with
  | nil => rfl
  | cons a t ih => simp [List.foldlM, h a, ih]

theorem clearRow_unchanged (fb : Framebuffer) (hfb : IsBytes fb) (y : Int) :
    clearRow fb y = some fb :=
  foldlM_fixed _ fb _ (fun x => drawPixel_black fb hfb (x : Int) y)

/-- The clear pass returns the framebuffer it was given. -/
theorem clearPass_unchanged (fb : Framebuffer) (hfb : IsBytes fb) :
    clearPass fb = some fb :=
  foldlM_fixed _ fb _ (fun y => clearRow_unchanged fb hfb (y : Int))

theorem isBytes_greenDot : IsBytes greenDot := by
  intro i
  unfold greenDot GREEN
  split_ifs <;> omega



theorem drawPixel_green_first : drawPixel zeroBuffer 0 240 GREEN = some greenDot := by
  rw [drawPixel_eq]
  congr 1
  funext j
  have hi : (byteIndex 0 240).toNat = 76800 := by decide
  have hv : fieldBits 0 240 GREEN = GREEN := by decide
  by_cases hj : j.val = 76800
  · have hj2 : j = ⟨(byteIndex 0 240).toNat, byteIndex_toNat_lt 0 240⟩ :=
      Fin.ext (hj.trans hi.symm)
    rw [hj2, orAssign_same, hv]
    simp only [greenDot, hi, zeroBuffer]
    decide
  · have hj2 : j ≠ ⟨(byteIndex 0 240).toNat, byteIndex_toNat_lt 0 240⟩ := by
      intro h
      apply hj
      rw [h]
      exact hi
    rw [orAssign_other _ _ _ _ hj2]
    simp only [greenDot, hj, zeroBuffer, if_false]

/-- C1 (fails on the code): clear, then `drawPixel(0, 240, GREEN)`, then clear
again ends in the framebuffer whose byte 76800 is 2, not in the all-zero one:
the clear pass run on that framebuffer returns it unchanged. -/
theorem clearPass_keeps_green_pixel :
    (clearPass zeroBuffer).bind
        (fun a => (drawPixels a [(0, 240, GREEN)]).bind clearPass) = some greenDot ∧
    clearPass greenDot = some greenDot ∧
    greenDot ⟨76800, by decide⟩ = 2 ∧
    clearPass greenDot ≠ some zeroBuffer := by
  have h1 := clearPass_unchanged zeroBuffer isBytes_zeroBuffer
  have h2 := clearPass_unchanged greenDot isBytes_greenDot
  refine ⟨?_, h2, rfl, ?_⟩
  · rw [h1, Option.some_bind, drawPixels, drawPixel_green_first, Option.some_bind, drawPixels,
      Option.some_bind]
    exact h2
  · rw [h2]
    intro h
    have h3 := congrFun (Option.some.inj h) ⟨76800, by decide⟩
    revert h3
    decide

/-! ## C10: bits 6 and 7 stay clear -/

theorem orAssign_lt64 (fb : Framebuffer) (h : ∀ i, fb i < 64) (i : Fin TXCOUNT) (v : Nat)
    (hv : v < 64) : ∀ j, orAssign fb i v j < 64 := by
  intro j
  unfold orAssign
  split_ifs
  · have := or_lt64 (fb j) v (h j) hv
    omega
  · exact h j

theorem drawPixels_lt64 (calls : List (Int × Int × Nat)) :
    ∀ fb : Framebuffer, (∀ i, fb i < 64) → (∀ c ∈ calls, c.2.2 < 8) →
      ∃ fb1, drawPixels fb calls = some fb1 ∧ ∀ i, fb1 i < 64 := by
  induction calls with
  | nil =>
    intro fb h _
    exact ⟨fb, rfl, h⟩
  | cons c rest ih =>
    intro fb h hc
    obtain ⟨x, y, color⟩ := c
    have hcol : color < 8 := hc (x, y, color) (List.mem_cons_self _ _)
    obtain ⟨i, _, hd⟩ := drawPixel_spec fb x y color
    have hstep := orAssign_lt64 fb h i _ (fieldBits_lt64 x y color hcol)
    obtain ⟨fb1, h1, h2⟩ := ih _ hstep (fun c hm => hc c (List.mem_cons_of_mem _ hm))
    refine ⟨fb1, ?_, h2⟩
    rw [drawPixels, hd, Option.some_bind]
    exact h1

/-- C10: starting from the all-zero framebuffer, any finite sequence of
`drawPixel` calls with arbitrary integer coordinates and colours in `0..7`
runs to completion and leaves every byte below 64 (bits 6 and 7 clear). -/
theorem reachable_bytes_lt_64 (calls : List (Int × Int × Nat))
    (hc : ∀ c ∈ calls, c.2.2 < 8) :
    ∃ fb1, drawPixels zeroBuffer calls = some fb1 ∧ ∀ i, fb1 i < 64 :=
  drawPixels_lt64 calls zeroBuffer (fun _ => by simp [zeroBuffer]) hc

/-- Witness for C10: three calls, two of them out of range. -/
theorem reachable_bytes_lt_64_witness :
    (∀ c ∈ [((700 : Int), (-5 : Int), (3 : Nat)), (0, 0, 7), (-1, 9999, 5)], c.2.2 < 8) ∧
    ∃ fb1, drawPixels zeroBuffer [(700, -5, 3), (0, 0, 7), (-1, 9999, 5)] = some fb1 ∧
      ∀ i, fb1 i < 64 :=
  ⟨by decide, reachable_bytes_lt_64 [(700, -5, 3), (0, 0, 7), (-1, 9999, 5)] (by decide)⟩

/-! ## C5: round trip and idempotence -/

theorem clampX_id (x : Int) (hx : 0 ≤ x ∧ x ≤ 639) : clampX x = x := by
  rw [clampX_eq]
  omega

theorem clampY_id (y : Int) (hy : 0 ≤ y ∧ y ≤ 479) : clampY y = y := by
  rw [clampY_eq]
  omega

theorem pixelOf_in_range (x y : Int) (hx : 0 ≤ x ∧ x ≤ 639) (hy : 0 ≤ y ∧ y ≤ 479) :
    pixelOf x y = 640 * y + x := by
  unfold pixelOf
  rw [clampX_id x hx, clampY_id y hy]

theorem orAssign_twice (fb : Framebuffer) (i : Fin TXCOUNT) (v : Nat) :
    orAssign (orAssign fb i v) i v = orAssign fb i v := by
  funext j
  by_cases hj : j = i
  · subst hj
    rw [orAssign_same, orAssign_same, or_mod256_idem]
  · rw [orAssign_other _ _ _ _ hj, orAssign_other _ _ _ _ hj]

theorem fin_eq_of_byteIndex (i j : Fin TXCOUNT) (z : Int) (hi : (i.val : Int) = z)
    (hj : (j.val : Int) = z) : i = j := by
  apply Fin.ext
  have h : (i.val : Int) = (j.val : Int) := hi.trans hj.symm
  exact_mod_cast h

/-- Drawing the same pixel again changes nothing. -/
theorem drawPixel_twice (fb fb1 : Framebuffer) (x y : Int) (color : Nat)
    (h : drawPixel fb x y color = some fb1) : drawPixel fb1 x y color = some fb1 := by
  obtain ⟨i, hi, hd⟩ := drawPixel_spec fb x y color
  obtain ⟨j, hj, hd1⟩ := drawPixel_spec fb1 x y color
  have hij : j = i := fin_eq_of_byteIndex j i _ hj hi
  rw [hd] at h
  have hfb : fb1 = orAssign fb i (fieldBits x y color) := (Option.some.inj h).symm
  rw [hd1, hij, hfb, orAssign_twice]

theorem drawPixelTimes_succ (fb fb1 : Framebuffer) (x y : Int) (color : Nat)
    (h : drawPixel fb x y color = some fb1) (n : Nat) :
    drawPixelTimes fb x y color (n + 1) = some fb1 := by
  induction n with
  | zero =>
    rw [drawPixelTimes, h, Option.some_bind, drawPixelTimes]
  | succ n ih =>
    rw [drawPixelTimes, h, Option.some_bind]
    rw [drawPixelTimes, h, Option.some_bind] at ih
    rw [drawPixelTimes, drawPixel_twice fb fb1 x y color h, Option.some_bind]
    exact ih

/-- C5: for `x` in `0..639`, `y` in `0..479`, a colour in `0..7` and a
framebuffer whose field for pixel `(x, y)` is zero, one call
`drawPixel(x, y, color)`, and likewise any number `n + 1` of identical calls,
gives a framebuffer in which the byte at index `(640*y+x)>>1` holds `color`
in bits 0-2 when `640*y+x` is even and in bits 3-5 when it is odd; applying
the call twice equals applying it once. -/
theorem drawPixel_round_trip (fb : Framebuffer) (x y : Int) (color n : Nat)
    (i : Fin TXCOUNT) (hx : 0 ≤ x ∧ x ≤ 639) (hy : 0 ≤ y ∧ y ≤ 479) (hc : color < 8)
    (hi : (i.val : Int) = (640 * y + x) >>> (1 : Nat))
    (hz : if (640 * y + x) % 2 = 0 then fb i % 8 = 0 else (fb i >>> 3) % 8 = 0) :
    ∃ fb1 : Framebuffer,
      drawPixel fb x y color = some fb1 ∧
      drawPixelTimes fb x y color (n + 1) = some fb1 ∧
      (drawPixel fb x y color).bind (fun a => drawPixel a x y color)
        = drawPixel fb x y color ∧
      (if (640 * y + x) % 2 = 0 then fb1 i % 8 = color
       else (fb1 i >>> 3) % 8 = color) := by
  obtain ⟨j, hj, hd⟩ := drawPixel_spec fb x y color
  have hp := pixelOf_in_range x y hx hy
  have hji : j = i := by
    apply fin_eq_of_byteIndex j i _ hj
    rw [hi, byteIndex, hp]
  subst hji
  refine ⟨_, hd, drawPixelTimes_succ fb _ x y color hd n, ?_, ?_⟩
  · rw [hd, Option.some_bind]
    exact drawPixel_twice fb _ x y color hd
  · rw [orAssign_same]
    by_cases he : (640 * y + x) % 2 = 0
    · rw [if_pos he] at hz ⊢
      rw [fieldBits_even x y color (by rw [hp]; exact he)]
      have h1 := or_low_mod8 (fb j) color hc
      rw [hz, Nat.zero_or] at h1
      rw [Nat.mod_mod_of_dvd _ (by decide : 8 ∣ 256)]
      exact h1
    · rw [if_neg he] at hz ⊢
      rw [fieldBits_odd x y color (by rw [hp]; omega)]
      have h1 := or_high_shift3 (fb j) color
      have h2 : ((fb j ||| color <<< 3) % 256) >>> 3 % 8 = (fb j ||| color <<< 3) >>> 3 % 8 := by
        generalize fb j ||| color <<< 3 = z
        rw [Nat.shiftRight_eq_div_pow, Nat.shiftRight_eq_div_pow]
        omega
      rw [h2, h1]
      have h3 := or_low_mod8 (fb j >>> 3) color hc
      rw [hz, Nat.zero_or] at h3
      exact h3

/-- Witness for C5: `drawPixel(1, 0, RED)` on the zero framebuffer, three times. -/
theorem drawPixel_round_trip_witness :
    ((0 : Int) ≤ 1 ∧ (1 : Int) ≤ 639) ∧ ((0 : Int) ≤ 0 ∧ (0 : Int) ≤ 479) ∧ RED < 8 ∧
    (((⟨0, by decide⟩ : Fin TXCOUNT).val : Int) = (640 * 0 + 1) >>> (1 : Nat)) ∧
    (if (640 * 0 + 1 : Int) % 2 = 0 then zeroBuffer ⟨0, by decide⟩ % 8 = 0
      else (zeroBuffer ⟨0, by decide⟩ >>> 3) % 8 = 0) ∧
    ∃ fb1 : Framebuffer,
      drawPixel zeroBuffer 1 0 RED = some fb1 ∧
      drawPixelTimes zeroBuffer 1 0 RED (2 + 1) = some fb1 ∧
      (drawPixel zeroBuffer 1 0 RED).bind (fun a => drawPixel a 1 0 RED)
        = drawPixel zeroBuffer 1 0 RED ∧
      (if (640 * 0 + 1 : Int) % 2 = 0 then fb1 ⟨0, by decide⟩ % 8 = RED
       else (fb1 ⟨0, by decide⟩ >>> 3) % 8 = RED) :=
  ⟨by decide, by decide, by decide, by decide, by decide,
    drawPixel_round_trip zeroBuffer 1 0 RED 2 ⟨0, by decide⟩ (by decide) (by decide)
      (by decide) (by decide) (by decide)⟩

/-! ## C4: two neighbours in one byte -/

theorem orAssign_zero_pair (i : Fin TXCOUNT) (c1 c2 : Nat) (hc1 : c1 < 8) (hc2 : c2 < 8) :
    orAssign (orAssign zeroBuffer i c1) i (c2 <<< 3)
        = orAssign (orAssign zeroBuffer i (c2 <<< 3)) i c1 ∧
    orAssign (orAssign zeroBuffer i c1) i (c2 <<< 3) i = c1 ||| (c2 <<< 3) ∧
    ∀ j, j ≠ i → orAssign (orAssign zeroBuffer i c1) i (c2 <<< 3) j = 0 := by
  have h2 := shl3_lt64 c2 hc2
  have h12 := or_lt64 c1 (c2 <<< 3) (by omega) h2
  have hval : orAssign (orAssign zeroBuffer i c1) i (c2 <<< 3) i = c1 ||| (c2 <<< 3) := by
    rw [orAssign_same, orAssign_same]
    simp only [zeroBuffer, Nat.zero_or]
    rw [Nat.mod_eq_of_lt (by omega : c1 < 256), Nat.mod_eq_of_lt (by omega)]
  have hval2 : orAssign (orAssign zeroBuffer i (c2 <<< 3)) i c1 i = c1 ||| (c2 <<< 3) := by
    rw [orAssign_same, orAssign_same]
    simp only [zeroBuffer, Nat.zero_or]
    rw [Nat.mod_eq_of_lt (by omega : c2 <<< 3 < 256), Nat.or_comm,
      Nat.mod_eq_of_lt (by omega)]
  refine ⟨?_, hval, ?_⟩
  · funext j
    by_cases hj : j = i
    · subst hj
      rw [hval, hval2]
    · rw [orAssign_other _ _ _ _ hj, orAssign_other _ _ _ _ hj, orAssign_other _ _ _ _ hj,
        orAssign_other _ _ _ _ hj]
  · intro j hj
    rw [orAssign_other _ _ _ _ hj, orAssign_other _ _ _ _ hj]
    rfl

/-- C4: for a row `y` in `0..479`, `k` in `0..319` and colours `c1`, `c2` in
`0..7`, starting from the all-zero framebuffer, `drawPixel(2k, y, c1)` and
`drawPixel(2k+1, y, c2)` in either order leave byte `(640*y + 2k)/2` equal to
`c1 | (c2 << 3)`, with `c1` in bits 0-2 and `c2` in bits 3-5, and every other
byte zero. -/
theorem adjacent_pixels_share_byte (y k : Int) (c1 c2 : Nat)
    (hy : 0 ≤ y ∧ y ≤ 479) (hk : 0 ≤ k ∧ k ≤ 319) (hc1 : c1 < 8) (hc2 : c2 < 8) :
    ∃ (fb1 : Framebuffer) (i : Fin TXCOUNT),
      (i.val : Int) = (640 * y + 2 * k) / 2 ∧
      drawPixels zeroBuffer [(2 * k, y, c1), (2 * k + 1, y, c2)] = some fb1 ∧
      drawPixels zeroBuffer [(2 * k + 1, y, c2), (2 * k, y, c1)] = some fb1 ∧
      fb1 i = c1 ||| (c2 <<< 3) ∧
      fb1 i % 8 = c1 ∧ (fb1 i >>> 3) % 8 = c2 ∧
      ∀ j, j ≠ i → fb1 j = 0 := by
  have hp0 := pixelOf_in_range (2 * k) y (by omega) hy
  have hp1 := pixelOf_in_range (2 * k + 1) y (by omega) hy
  have hb0 : byteIndex (2 * k) y = (640 * y + 2 * k) / 2 := by
    rw [byteIndex_eq_div, hp0]
  have hb1 : byteIndex (2 * k + 1) y = (640 * y + 2 * k) / 2 := by
    rw [byteIndex_eq_div, hp1]
    omega
  have hf0 : ∀ c, fieldBits (2 * k) y c = c := fun c =>
    fieldBits_even _ _ c (by rw [hp0]; omega)
  have hf1 : ∀ c, fieldBits (2 * k + 1) y c = c <<< 3 := fun c =>
    fieldBits_odd _ _ c (by rw [hp1]; omega)
  have hidx : ∀ (fb : Framebuffer) (x : Int) (c : Nat),
      byteIndex x y = (640 * y + 2 * k) / 2 →
      ∀ i : Fin TXCOUNT, (i.val : Int) = (640 * y + 2 * k) / 2 →
        drawPixel fb x y c = some (orAssign fb i (fieldBits x y c)) := by
    intro fb x c hb i hi
    obtain ⟨j, hj, hd⟩ := drawPixel_spec fb x y c
    have hji : j = i := fin_eq_of_byteIndex j i _ (hj.trans hb) hi
    rw [hd, hji]
  obtain ⟨i, hi, _⟩ := drawPixel_spec zeroBuffer (2 * k) y c1
  rw [hb0] at hi
  obtain ⟨hswap, hval, hother⟩ := orAssign_zero_pair i c1 c2 hc1 hc2
  refine ⟨orAssign (orAssign zeroBuffer i c1) i (c2 <<< 3), i, hi, ?_, ?_, hval, ?_, ?_, hother⟩
  · rw [drawPixels, hidx _ _ _ hb0 i hi, Option.some_bind, drawPixels,
      hidx _ _ _ hb1 i hi, Option.some_bind, drawPixels, hf0, hf1]
  · rw [drawPixels, hidx _ _ _ hb1 i hi, Option.some_bind, drawPixels,
      hidx _ _ _ hb0 i hi, Option.some_bind, drawPixels, hf0, hf1, hswap]
  · rw [hval, or_high_mod8]
    omega
  · rw [hval, or_high_shift3, Nat.shiftRight_eq_div_pow]
    have h0 : c1 / 2 ^ 3 = 0 := Nat.div_eq_of_lt hc1
    rw [h0, Nat.zero_or]
    omega

/-- Witness for C4: `drawPixel(0, 0, WHITE)` then `drawPixel(1, 0, RED)`
gives byte 0 the value `0b001111 = 15`. -/
theorem adjacent_pixels_share_byte_witness :
    ((0 : Int) ≤ 0 ∧ (0 : Int) ≤ 479) ∧ ((0 : Int) ≤ 0 ∧ (0 : Int) ≤ 319) ∧
    WHITE < 8 ∧ RED < 8 ∧
    ∃ (fb1 : Framebuffer) (i : Fin TXCOUNT),
      (i.val : Int) = (640 * 0 + 2 * 0) / 2 ∧
      drawPixels zeroBuffer [(2 * 0, 0, WHITE), (2 * 0 + 1, 0, RED)] = some fb1 ∧
      drawPixels zeroBuffer [(2 * 0 + 1, 0, RED), (2 * 0, 0, WHITE)] = some fb1 ∧
      fb1 i = 15 ∧
      fb1 i % 8 = WHITE ∧ (fb1 i >>> 3) % 8 = RED ∧
      ∀ j, j ≠ i → fb1 j = 0 :=
  ⟨by decide, by decide, by decide, by decide,
    adjacent_pixels_share_byte 0 0 WHITE RED (by decide) (by decide) (by decide) (by decide)⟩

/-! ## C7: the pixel-to-slot mapping -/

/-- C7: on the pixels `0 ≤ x ≤ 639`, `0 ≤ y ≤ 479` the mapping
`(x, y) ↦ (pixel>>1, pixel&1)` used by `drawPixel` is a bijection onto
`{0..153599} × {0, 1}`; byte `i` holds the linear pixels `2i` (low field) and
`2i+1` (high field), which are `(x, y)` and `(x+1, y)` with `x` even; and
`drawPixel` writes exactly at that slot. -/
theorem pixel_slot_bijection :
    Set.BijOn (fun p : Int × Int => (byteIndex p.1 p.2, nibble p.1 p.2))
      (Set.Icc (0 : Int) 639 ×ˢ Set.Icc (0 : Int) 479)
      (Set.Ico (0 : Int) 153600 ×ˢ ({0, 1} : Set Int)) ∧
    (∀ i : Fin TXCOUNT, ∃ x y : Int,
      0 ≤ x ∧ x + 1 ≤ 639 ∧ x % 2 = 0 ∧ 0 ≤ y ∧ y ≤ 479 ∧
      pixelOf x y = 2 * (i.val : Int) ∧ pixelOf (x + 1) y = 2 * (i.val : Int) + 1 ∧
      byteIndex x y = i.val ∧ nibble x y = 0 ∧
      byteIndex (x + 1) y = i.val ∧ nibble (x + 1) y = 1) ∧
    (∀ (fb : Framebuffer) (x y : Int) (color : Nat), ∃ i : Fin TXCOUNT,
      (i.val : Int) = byteIndex x y ∧
      drawPixel fb x y color
        = some (orAssign fb i (if nibble x y ≠ 0 then color <<< 3 else color))) := by
  refine ⟨⟨?_, ?_, ?_⟩, ?_, ?_⟩
  · rintro ⟨x, y⟩ ⟨hx, hy⟩
    simp only [Set.mem_Icc] at hx hy
    have hb := byteIndex_range x y
    have hn := nibble_cases x y
    simp only [Set.mem_prod, Set.mem_Ico, Set.mem_insert_iff, Set.mem_singleton_iff]
    exact ⟨hb, hn⟩
  · rintro ⟨x, y⟩ ⟨hx, hy⟩ ⟨x1, y1⟩ ⟨hx1, hy1⟩ h
    simp only [Set.mem_Icc] at hx hy hx1 hy1
    simp only [Prod.mk.injEq] at h
    obtain ⟨hb, hn⟩ := h
    rw [byteIndex_eq_div, byteIndex_eq_div] at hb
    rw [nibble_eq_mod, nibble_eq_mod] at hn
    rw [pixelOf_in_range x y hx hy, pixelOf_in_range x1 y1 hx1 hy1] at hb hn
    have hxy : x = x1 ∧ y = y1 := by omega
    rw [hxy.1, hxy.2]
  · rintro ⟨i, n⟩ ⟨hi, hn⟩
    simp only [Set.mem_Ico, Set.mem_insert_iff, Set.mem_singleton_iff] at hi hn
    have hxr : 0 ≤ (2 * i + n) % 640 ∧ (2 * i + n) % 640 ≤ 639 := by omega
    have hyr : 0 ≤ (2 * i + n) / 640 ∧ (2 * i + n) / 640 ≤ 479 := by omega
    refine ⟨((2 * i + n) % 640, (2 * i + n) / 640), ⟨?_, ?_⟩, ?_⟩
    · simp only [Set.mem_Icc]
      exact hxr
    · simp only [Set.mem_Icc]
      exact hyr
    · simp only [Prod.mk.injEq]
      rw [byteIndex_eq_div, nibble_eq_mod, pixelOf_in_range _ _ hxr hyr]
      omega
  · intro i
    have hi : i.val < 153600 := i.isLt
    have hxr : 0 ≤ (2 * (i.val : Int)) % 640 ∧ (2 * (i.val : Int)) % 640 ≤ 639 := by omega
    have hxr1 : 0 ≤ (2 * (i.val : Int)) % 640 + 1 ∧ (2 * (i.val : Int)) % 640 + 1 ≤ 639 := by
      omega
    have hyr : 0 ≤ (2 * (i.val : Int)) / 640 ∧ (2 * (i.val : Int)) / 640 ≤ 479 := by omega
    refine ⟨(2 * (i.val : Int)) % 640, (2 * (i.val : Int)) / 640, hxr.1, hxr1.2, by omega,
      hyr.1, hyr.2, ?_, ?_, ?_, ?_, ?_, ?_⟩
    all_goals
      first
      | rw [byteIndex_eq_div, pixelOf_in_range _ _ hxr hyr]; omega
      | rw [byteIndex_eq_div, pixelOf_in_range _ _ hxr1 hyr]; omega
      | rw [nibble_eq_mod, pixelOf_in_range _ _ hxr hyr]; omega
      | rw [nibble_eq_mod, pixelOf_in_range _ _ hxr1 hyr]; omega
      | rw [pixelOf_in_range _ _ hxr hyr]; omega
      | rw [pixelOf_in_range _ _ hxr1 hyr]; omega
  · intro fb x y color
    exact drawPixel_spec fb x y color

/-! ## C8: the stream / reset loop -/

theorem dmaInv_init (base : Nat) : DmaInv base (dmaInit base) := by
  simp [DmaInv, dmaInit]

theorem dmaInv_step (base : Nat) (hbase : base + TXCOUNT < 2 ^ 32) (s : Pipeline)
    (h : DmaInv base s) : DmaInv base (dmaStep s) := by
  obtain ⟨h1, h2, h3⟩ := h
  unfold dmaStep
  split_ifs with hc
  · refine ⟨h1, ?_, ?_⟩
    · show (s.read_addr + 1) % 2 ^ 32 = base + (s.streamed + 1)
      rw [Nat.mod_eq_of_lt (by omega)]
      omega
    · show s.streamed + 1 + (s.trans_count - 1) = TXCOUNT
      omega
  · refine ⟨h1, ?_, ?_⟩
    · show s.address_pointer % 2 ^ 32 = base + 0
      rw [h1, Nat.mod_eq_of_lt (by omega)]
      rfl
    · show 0 + TXCOUNT = TXCOUNT
      omega

theorem dmaInv_run (base : Nat) (hbase : base + TXCOUNT < 2 ^ 32) (n : Nat) :
    ∀ s, DmaInv base s → DmaInv base (dmaRun s n) := by
  induction n with
  | zero =>
    intro s h
    exact h
  | succ n ih =>
    intro s h
    exact ih _ (dmaInv_step base hbase s h)

theorem dmaRun_add (a b : Nat) : ∀ s, dmaRun s (a + b) = dmaRun (dmaRun s a) b := by
  induction a with
  | zero =>
    intro s
    rw [Nat.zero_add]
    rfl
  | succ a ih =>
    intro s
    rw [Nat.succ_add]
    exact ih (dmaStep s)

theorem dmaRun_one (s : Pipeline) : dmaRun s 1 = dmaStep s := rfl

/-- While transfers remain, `j` events move `j` bytes. -/
theorem dmaRun_stream (j : Nat) :
    ∀ s : Pipeline, j ≤ s.trans_count → s.read_addr + j < 2 ^ 32 →
      dmaRun s j = { s with read_addr := s.read_addr + j,
                            trans_count := s.trans_count - j,
                            streamed := s.streamed + j } := by
  induction j with
  | zero =>
    intro s _ _
    rfl
  | succ j ih =>
    intro s hj hlt
    have hne : s.trans_count ≠ 0 := by omega
    have hstep : dmaStep s = { s with read_addr := s.read_addr + 1,
                                      trans_count := s.trans_count - 1,
                                      streamed := s.streamed + 1 } := by
      unfold dmaStep
      rw [if_pos hne, Nat.mod_eq_of_lt (by omega)]
    show dmaRun (dmaStep s) j = _
    rw [hstep, ih _ (by show j ≤ s.trans_count - 1; omega)
      (by show s.read_addr + 1 + j < 2 ^ 32; omega)]
    show Pipeline.mk _ _ _ _ _ = Pipeline.mk _ _ _ _ _
    congr 1 <;> dsimp only <;> omega

/-- One whole pass followed by the reload brings back the armed state. -/
theorem dmaRun_cycle (base r : Nat) (hbase : base + TXCOUNT < 2 ^ 32) :
    dmaRun { dmaInit base with resets := r } (TXCOUNT + 1)
      = { dmaInit base with resets := r + 1 } := by
  have hs := dmaRun_stream TXCOUNT { dmaInit base with resets := r } (Nat.le_refl _) hbase
  have hm : base % 2 ^ 32 = base := Nat.mod_eq_of_lt (by omega)
  rw [dmaRun_add, hs, dmaRun_one]
  unfold dmaStep
  dsimp only [dmaInit]
  rw [Nat.sub_self, if_neg (not_not.mpr rfl), hm]

theorem dmaRun_cycles (base : Nat) (hbase : base + TXCOUNT < 2 ^ 32) (k : Nat) :
    ∀ r, dmaRun { dmaInit base with resets := r } (k * (TXCOUNT + 1))
      = { dmaInit base with resets := r + k } := by
  induction k with
  | zero =>
    intro r
    rw [Nat.zero_mul]
    rfl
  | succ k ih =>
    intro r
    rw [Nat.succ_mul, Nat.add_comm, dmaRun_add, dmaRun_cycle base r hbase, ih (r + 1)]
    show Pipeline.mk _ _ _ _ _ = Pipeline.mk _ _ _ _ _
    congr 1
    omega

/-- C8: for an array placed at `base` inside the 32-bit address space, after
any number `n` of hardware events the read cursor is `base` plus the bytes
streamed in the current pass and lies in `[base, base + 153600]`; a reset
event happens only after exactly `640*480/2 = 153600` streamed bytes and
leaves the cursor at `base` with the full count reloaded; and after `k`
complete cycles the pipeline is back in its armed state with `k` resets
counted, for every `k`. -/
theorem dma_loop_no_drift (base : Nat) (hbase : base + TXCOUNT < 2 ^ 32) (n k : Nat) :
    base ≤ (dmaRun (dmaInit base) n).read_addr ∧
    (dmaRun (dmaInit base) n).read_addr ≤ base + 153600 ∧
    (dmaRun (dmaInit base) n).read_addr = base + (dmaRun (dmaInit base) n).streamed ∧
    ((dmaRun (dmaInit base) n).trans_count = 0 ↔
      (dmaStep (dmaRun (dmaInit base) n)).resets = (dmaRun (dmaInit base) n).resets + 1) ∧
    ((dmaStep (dmaRun (dmaInit base) n)).resets = (dmaRun (dmaInit base) n).resets + 1 →
      (dmaRun (dmaInit base) n).streamed = 640 * 480 / 2 ∧
      (dmaStep (dmaRun (dmaInit base) n)).read_addr = base ∧
      (dmaStep (dmaRun (dmaInit base) n)).trans_count = TXCOUNT ∧
      (dmaStep (dmaRun (dmaInit base) n)).streamed = 0) ∧
    dmaRun (dmaInit base) (k * (TXCOUNT + 1)) = { dmaInit base with resets := k } := by
  obtain ⟨h1, h2, h3⟩ := dmaInv_run base hbase n _ (dmaInv_init base)
  obtain ⟨g1, g2, g3⟩ := dmaInv_step base hbase _ ⟨h1, h2, h3⟩
  generalize dmaRun (dmaInit base) n = s at h1 h2 h3 g1 g2 g3 ⊢
  have hT : TXCOUNT = 153600 := rfl
  have hreset : s.trans_count = 0 ↔ (dmaStep s).resets = s.resets + 1 := by
    unfold dmaStep
    split_ifs with hc
    · constructor
      · intro h
        exact absurd h hc
      · intro h
        have h4 : s.resets = s.resets + 1 := h
        omega
    · constructor
      · intro _
        rfl
      · intro _
        exact not_not.mp hc
  refine ⟨by omega, by omega, h2, hreset, ?_, ?_⟩
  · intro hr
    have hz := hreset.mpr hr
    have hs : (dmaStep s).streamed = 0 ∧ (dmaStep s).trans_count = TXCOUNT := by
      unfold dmaStep
      rw [if_neg (not_not.mpr hz)]
      exact ⟨rfl, rfl⟩
    refine ⟨by omega, ?_, hs.2, hs.1⟩
    rw [g2, hs.1]
    rfl
  · have h := dmaRun_cycles base hbase k 0
    rw [Nat.zero_add] at h
    exact h

/-- Witness for C8: the array at the start of the RP2040 SRAM, `0x20000000`. -/
theorem dma_loop_no_drift_witness :
    536870912 + TXCOUNT < 2 ^ 32 ∧
    (536870912 ≤ (dmaRun (dmaInit 536870912) 5).read_addr ∧
    (dmaRun (dmaInit 536870912) 5).read_addr ≤ 536870912 + 153600 ∧
    (dmaRun (dmaInit 536870912) 5).read_addr
      = 536870912 + (dmaRun (dmaInit 536870912) 5).streamed ∧
    ((dmaRun (dmaInit 536870912) 5).trans_count = 0 ↔
      (dmaStep (dmaRun (dmaInit 536870912) 5)).resets
        = (dmaRun (dmaInit 536870912) 5).resets + 1) ∧
    ((dmaStep (dmaRun (dmaInit 536870912) 5)).resets
        = (dmaRun (dmaInit 536870912) 5).resets + 1 →
      (dmaRun (dmaInit 536870912) 5).streamed = 640 * 480 / 2 ∧
      (dmaStep (dmaRun (dmaInit 536870912) 5)).read_addr = 536870912 ∧
      (dmaStep (dmaRun (dmaInit 536870912) 5)).trans_count = TXCOUNT ∧
      (dmaStep (dmaRun (dmaInit 536870912) 5)).streamed = 0) ∧
    dmaRun (dmaInit 536870912) (1000 * (TXCOUNT + 1))
      = { dmaInit 536870912 with resets := 1000 }) :=
  ⟨by decide, dma_loop_no_drift 536870912 (by decide) 5 1000⟩

end VgaBasics
